import Mathlib

/-!
Verification of the file-packaging utility `scripts/package_it.py`.

The script is embedded shallowly: the filesystem is a list of entries
(each a root-relative path with kind, read outcome and stat timestamps),
clock readings are explicit `DateTime` arguments, and the fallible
`Path.read_text` call is an `Except` value stored in the entry.  All
definitions in the first half of the file are transcribed from the
Python source; the second half states and proves the claims.

Modelling conventions:
* Paths are lists of components, relative to the project root; the posix
  rendering `relative_to(root).as_posix()` is `String.intercalate "/"`.
* `datetime.fromtimestamp` / `datetime.now()` produce calendar tuples;
  the tuple itself (a `DateTime`) is taken as the timestamp value, so the
  timezone-dependent epoch-to-calendar conversion done by the Python
  standard library is not re-modelled.
* `str.lower()` is modelled by `Char.toLower` on each character (the
  paths the script handles are ASCII).
* The glob patterns used by the script ("*.rs", "mod.rs") contain no
  character classes, so the matcher implements only `*`, `?` and
  literal characters of `fnmatch`, applied to the final path component
  exactly as `Path.rglob` does for single-component patterns.
-/

namespace PackageIt

/-- Outcomes of a failed `Path.read_text`: `PermissionError`,
`UnicodeDecodeError` (non-UTF-8 content), `IsADirectoryError`. -/
inductive ReadError
  | permissionDenied
  | decodeError
  | isADirectory
deriving DecidableEq, Repr

/-- A calendar timestamp as produced by `datetime.fromtimestamp` /
`datetime.now()`. -/
structure DateTime where
  year : Nat
  month : Nat
  day : Nat
  hour : Nat
  minute : Nat
  second : Nat
  microsecond : Nat
deriving DecidableEq, Repr

instance {α : Type} [DecidableEq α] : DecidableEq (Except ReadError α)
  | .error a, .error b =>
    if h : a = b then .isTrue (by rw [h]) else .isFalse (by intro hh; cases hh; exact h rfl)
  | .error _, .ok _ => .isFalse (by intro hh; cases hh)
  | .ok _, .error _ => .isFalse (by intro hh; cases hh)
  | .ok a, .ok b =>
    if h : a = b then .isTrue (by rw [h]) else .isFalse (by intro hh; cases hh; exact h rfl)

/-- One filesystem entry: its root-relative path, whether it is a
directory, the outcome `Path.read_text` would give (directories read as
`IsADirectoryError`), and its stat creation/modification times. -/
structure Entry where
  path : List String
  isDir : Bool
  content : Except ReadError String
  ctime : DateTime
  mtime : DateTime
deriving DecidableEq, Repr

/-- The project tree under the resolved root.  The list order is the
(OS-dependent) enumeration order of `Path.rglob`, which the script never
relies on because it re-sorts every directory scan. -/
structure FS where
  entries : List Entry
deriving DecidableEq, Repr

/-- Configuration constant `PROJECT_TITLE`. -/
def PROJECT_TITLE : String := "secure_gate"

/-- One element of the `PACKAGES` configuration list. -/
structure PackageSpec where
  suffix : String
  root_files : List (List String)
  include_dirs : List (List String)
  file_pattern : String
  description : String
deriving DecidableEq, Repr

/-- The "src" package spec. -/
def pkgSrc : PackageSpec :=
  { suffix := "src"
    root_files := [["Cargo.toml"], ["CHANGELOG.md"], ["README.md"]]
    include_dirs := [["src"]]
    file_pattern := "*.rs"
    description := "Full library source + Cargo.toml" }

/-- The "tests" package spec. -/
def pkgTests : PackageSpec :=
  { suffix := "tests"
    root_files := []
    include_dirs := [["tests"]]
    file_pattern := "*.rs"
    description := "All integration tests" }

/-- The "fuzz" package spec. -/
def pkgFuzz : PackageSpec :=
  { suffix := "fuzz"
    root_files := [["fuzz", "Cargo.toml"], [".github", "workflows", "fuzz-nightly.yml"],
      [".github", "workflows", "fuzz-quick.yml"]]
    include_dirs := [["fuzz", "fuzz_targets"]]
    file_pattern := "*.rs"
    description := "Fuzzing targets" }

/-- The "mod" package spec. -/
def pkgMod : PackageSpec :=
  { suffix := "mod"
    root_files := []
    include_dirs := [["src"], ["tests"]]
    file_pattern := "mod.rs"
    description := "Only mod.rs files from src/ and tests/ (module structure overview)" }

/-- The static `PACKAGES` list, in source order. -/
def PACKAGES : List PackageSpec := [pkgSrc, pkgTests, pkgFuzz, pkgMod]

/-- The decimal digit character for `d`. -/
def digitChar (d : Nat) : Char := Char.ofNat (48 + d)

/-- Exactly `w` decimal digits of `n`, most significant first (the
low-order `w` digits, zero-padded). -/
def natToDigitsFix : Nat → Nat → List Char
  | 0, _ => []
  | w + 1, n => natToDigitsFix w (n / 10) ++ [digitChar (n % 10)]

/-- Fuel-driven digit count of `n` (0 for 0, as in zero-padded rendering
where the padding supplies at least one digit). -/
def digitsLenAux : Nat → Nat → Nat
  | 0, _ => 0
  | _ + 1, 0 => 0
  | fuel + 1, n + 1 => digitsLenAux fuel ((n + 1) / 10) + 1

/-- Number of decimal digits of `n` (with `digitsLen 0 = 0`). -/
def digitsLen (n : Nat) : Nat := digitsLenAux n n

/-- Python's `%0wd` / `{n:0wd}` formatting: `n` in decimal, left-padded
with zeros to at least width `w` (wider numbers are not truncated). -/
def padNum (w n : Nat) : String := String.mk (natToDigitsFix (max w (digitsLen n)) n)

/-- `format_timestamp`: strftime `"%Y-%m-%d %H:%M:%S.%f"` followed by
`[:-3]`, i.e. millisecond precision obtained by dropping the last three
characters of the six-digit microsecond field. -/
def formatTimestamp (t : DateTime) : String :=
  (padNum 4 t.year ++ "-" ++ padNum 2 t.month ++ "-" ++ padNum 2 t.day ++ " " ++
   padNum 2 t.hour ++ ":" ++ padNum 2 t.minute ++ ":" ++ padNum 2 t.second ++ "." ++
   padNum 6 t.microsecond).dropRight 3

/-- `format_output_timestamp`: strftime `"%Y%m%d_%H%M%S"`, the sortable
filename prefix. -/
def formatOutputTimestamp (t : DateTime) : String :=
  padNum 4 t.year ++ padNum 2 t.month ++ padNum 2 t.day ++ "_" ++
  padNum 2 t.hour ++ padNum 2 t.minute ++ padNum 2 t.second

/-- The characters Python's `str.rstrip()` (no argument) strips. -/
def pyWhitespaceChars : List Char :=
  [' ', '\t', '\n', '\r', '\x0b', '\x0c',
   '\x1c', '\x1d', '\x1e', '\x1f', '\x85', '\xa0',
   ' ', ' ', ' ', ' ', ' ', ' ', ' ',
   ' ', ' ', ' ', ' ', ' ',
   ' ', ' ', ' ', ' ', '　']

/-- Whether `c` is whitespace for `str.rstrip()`. -/
def pyIsSpace (c : Char) : Bool := pyWhitespaceChars.contains c

/-- Python's `content.rstrip()`: remove all trailing whitespace. -/
def rstrip (s : String) : String := String.mk ((s.data.reverse.dropWhile pyIsSpace).reverse)

/-- `relative_to(root).as_posix()` on a root-relative component list. -/
def relStr (p : List String) : String := String.intercalate "/" p

/-- `fnmatch`-style matching of a single-component glob pattern
(`*`, `?`, literal characters) against a file name. -/
def globMatch : List Char → List Char → Bool
  | [], s => s.isEmpty
  | '*' :: ps, s => s.tails.any fun t => globMatch ps t
  | '?' :: ps, s => match s with | [] => false | _ :: s' => globMatch ps s'
  | c :: ps, s => match s with | [] => false | c' :: s' => c == c' && globMatch ps s'

/-- Whether file name `name` matches glob pattern `pat`. -/
def nameMatches (pat name : String) : Bool := globMatch pat.data name.data

/-- The entry stored at exactly path `p`, if any. -/
def FS.findEntry (fs : FS) (p : List String) : Option Entry :=
  fs.entries.find? (fun e => e.path == p)

/-- `Path.is_file`: an entry exists at `p` and is not a directory. -/
def FS.isFile (fs : FS) (p : List String) : Bool :=
  match fs.findEntry p with
  | some e => !e.isDir
  | none => false

/-- `Path.exists`: some entry lies at `p` or below it. -/
def FS.pathExists (fs : FS) (p : List String) : Bool :=
  fs.entries.any (fun e => p.isPrefixOf e.path)

/-- `base.rglob(pattern)`: every entry strictly below `base` (files and
directories alike) whose final name component matches the pattern, in
filesystem enumeration order. -/
def FS.rglob (fs : FS) (base : List String) (pat : String) : List Entry :=
  fs.entries.filter (fun e =>
    base.isPrefixOf e.path && decide (base.length < e.path.length) &&
      nameMatches pat (e.path.getLastD ""))

/-- Lexicographic comparison (less-or-equal) of character lists by code
point, the order Python uses on strings. -/
def lexLeB : List Char → List Char → Bool
  | [], _ => true
  | _ :: _, [] => false
  | a :: as, b :: bs => if a < b then true else if b < a then false else lexLeB as bs

/-- The sort key of `sorted(..., key=lambda p: p.relative_to(root).as_posix().lower())`. -/
def lowerKey (p : List String) : List Char := (relStr p).data.map Char.toLower

/-- The sort relation of the directory scan: case-insensitive
lexicographic order on root-relative posix paths. -/
def entryLe (a b : Entry) : Prop := lexLeB (lowerKey a.path) (lowerKey b.path) = true

instance : DecidableRel entryLe := fun a b =>
  inferInstanceAs (Decidable (_ = true))

/-- `sorted(base_dir.rglob(pattern), key=...)`: a stable sort of the
scan by the case-insensitive path key (Python's `sorted` is stable, as
is insertion sort, and both use the same total preorder on keys, so the
results agree element for element). -/
def dirMatches (fs : FS) (base : List String) (pat : String) : List Entry :=
  List.insertionSort entryLe (fs.rglob base pat)

/-- The separator line of a section header: 80 equals signs and a newline. -/
def eq80Line : String := String.mk (List.replicate 80 '=') ++ "\n"

/-- The comment separator line of the document header and table of
contents: a comment marker, 76 equals signs and a newline. -/
def eq76Line : String := "// " ++ String.mk (List.replicate 76 '=') ++ "\n"

/-- The closing table-of-contents line (separator plus blank line). -/
def eq76Close : String :=
  "// " ++ String.mk (List.replicate 76 '=') ++ "\n\n"

/-- The string `add_file` appends to `file_contents`: the section header
followed by the content with trailing whitespace stripped and a single
newline. -/
def sectionText (idx : Nat) (rel : String) (ct mt : DateTime) (content : String) : String :=
  "\n\n\n" ++ eq80Line ++
  "// SECTION " ++ padNum 3 idx ++ ": " ++ rel ++ "\n" ++
  "// Created:  " ++ formatTimestamp ct ++ "\n" ++
  "// Modified: " ++ formatTimestamp mt ++ "\n" ++
  eq80Line ++
  rstrip content ++ "\n"

/-- The mutable state of one `create_package` run: the `file_contents`
and `toc_entries` lists, the `seen_paths` set (as a list), and the
warnings printed so far. -/
structure CollectSt where
  contents : List String
  toc : List String
  seen : List String
  warnings : List String
deriving DecidableEq, Repr

/-- `add_file`: read the file (propagating any error), then append its
rendered section and its table-of-contents entry. -/
def addFile (st : CollectSt) (e : Entry) : Except ReadError CollectSt := do
  let rel := relStr e.path
  let c ← e.content
  .ok { st with
        contents := st.contents ++ [sectionText (st.toc.length + 1) rel e.ctime e.mtime c]
        toc := st.toc ++ [rel] }

/-- The body of the `for rs_file in sorted(...)` loop: skip already-seen
relative paths, otherwise `add_file` and record the path as seen. -/
def processMatches (fs : FS) : CollectSt → List Entry → Except ReadError CollectSt
  | st, [] => .ok st
  | st, e :: rest =>
    let rel := relStr e.path
    if rel ∈ st.seen then processMatches fs st rest
    else do
      let st' ← addFile st e
      processMatches fs { st' with seen := rel :: st'.seen } rest

/-- The `for f in pkg_def["root_files"]` loop: include each listed root
file that exists as a regular file and has not been seen. -/
def processRootFiles (fs : FS) : CollectSt → List (List String) → Except ReadError CollectSt
  | st, [] => .ok st
  | st, f :: rest =>
    match fs.findEntry f with
    | some e =>
      if e.isDir then processRootFiles fs st rest
      else
        let rel := relStr f
        if rel ∈ st.seen then processRootFiles fs st rest
        else do
          let st' ← addFile st e
          processRootFiles fs { st' with seen := rel :: st'.seen } rest
    | none => processRootFiles fs st rest

/-- The warning printed for a missing include directory (the script
prints the absolute path; the root prefix is dropped here because paths
are stored root-relative). -/
def warnMsg (d : List String) : String := "  Warning: Directory not found: " ++ relStr d

/-- The `for base_dir_name in pkg_def["include_dirs"]` loop: warn and
skip missing directories, otherwise process the sorted recursive scan. -/
def processDirs (fs : FS) (pat : String) : CollectSt → List (List String) → Except ReadError CollectSt
  | st, [] => .ok st
  | st, d :: rest =>
    if fs.pathExists d then do
      let st' ← processMatches fs st (dirMatches fs d pat)
      processDirs fs pat st' rest
    else
      processDirs fs pat { st with warnings := st.warnings ++ [warnMsg d] } rest

/-- The `for i, entry in enumerate(toc_entries, 1)` loop rendering one
table-of-contents line per collected file. -/
def tocEntryLines : Nat → List String → List String
  | _, [] => []
  | i, e :: rest => ("// " ++ padNum 3 i ++ ". " ++ e ++ "\n") :: tocEntryLines (i + 1) rest

/-- Everything one `create_package` call produces: the output file name,
the collected relative paths (`toc_entries`), the rendered sections
(`file_contents`), the rendered table-of-contents lines, the warnings,
the rendered header generation time, the full document text, and the
reported file count. -/
structure PackageOutput where
  filename : String
  tocEntries : List String
  sections : List String
  tocLines : List String
  warnings : List String
  headerTime : String
  text : String
  count : Nat
deriving DecidableEq, Repr

/-- The document title block written before the table of contents. -/
def docHeader (description headerTime : String) : String :=
  eq76Line ++
  "// " ++ PROJECT_TITLE ++ " – " ++ description ++ "\n" ++
  "// Generated by: package_it.py\n" ++
  "// Generated at: " ++ headerTime ++ "\n" ++
  eq76Line ++ "\n"

/-- `create_package`: collect root files then directory scans, render
the table of contents and the document, using the shared run `timestamp`
for the file name and a fresh clock reading `now` for the header. -/
def createPackage (fs : FS) (pkg : PackageSpec) (timestamp : String) (now : DateTime) :
    Except ReadError PackageOutput := do
  let output_filename := timestamp ++ "_" ++ PROJECT_TITLE ++ "_" ++ pkg.suffix ++ ".txt"
  let st0 : CollectSt := ⟨[], [], [], []⟩
  let st1 ← processRootFiles fs st0 pkg.root_files
  let st ← processDirs fs pkg.file_pattern st1 pkg.include_dirs
  let toc_lines :=
    [eq76Line, "// TABLE OF CONTENTS\n", eq76Line] ++
    tocEntryLines 1 st.toc ++
    (if st.toc.isEmpty then ["// (no files included)\n"] else []) ++
    [eq76Close]
  let header_time := formatTimestamp now
  .ok { filename := output_filename
        tocEntries := st.toc
        sections := st.contents
        tocLines := toc_lines
        warnings := st.warnings
        headerTime := header_time
        text := docHeader pkg.description header_time ++
          String.join toc_lines ++ String.join st.contents
        count := st.contents.length }

/-- The loop of `package_all` over `PACKAGES`.  `readings n` is the
value of the n-th `datetime.now()` call of the run: reading 0 is taken
by `format_output_timestamp`, and reading `i + 1` inside the i-th
`create_package`. -/
def runPackages (fs : FS) (ts : String) (readings : Nat → DateTime) :
    Nat → List PackageSpec → Except ReadError (List PackageOutput)
  | _, [] => .ok []
  | i, p :: rest => do
    let out ← createPackage fs p ts (readings i)
    let outs ← runPackages fs ts readings (i + 1) rest
    .ok (out :: outs)

/-- `package_all`: compute the run timestamp once, then create every
package sequentially with it. -/
def packageAll (fs : FS) (readings : Nat → DateTime) : Except ReadError (List PackageOutput) :=
  runPackages fs (formatOutputTimestamp (readings 0)) readings 1 PACKAGES

/-- The marker file checked by `find_project_root`. -/
def markerFile : String := "Cargo.toml"

/-- The upward walk of `find_project_root` over the reversed component
list of the current directory (so taking the parent is `List.tail`).
The loop guard `cur != cur.parent` makes the walk stop, without a check,
once `cur` is the filesystem root (the empty component list). -/
def rootSearchRev (ex : List String → Bool) : List String → Option (List String)
  | [] => none
  | c :: rest =>
    if ex ((c :: rest).reverse ++ [markerFile]) then some (c :: rest).reverse
    else rootSearchRev ex rest

/-- `find_project_root`: walk upward from the starting directory (the
resolved parent of the argument, i.e. the script's own directory when
called with `None`) and fall back to that starting directory.  `ex` is
the `Path.exists` predicate of the ambient filesystem, with absolute
paths as component lists.  The function is total: no error is raised. -/
def findProjectRoot (ex : List String → Bool) (start : List String) : List String :=
  (rootSearchRev ex start.reverse).getD start

/-- The directories the walk of `find_project_root` visits: the start
and its ancestors, the filesystem root excluded. -/
def ancestorChainRev : List String → List (List String)
  | [] => []
  | c :: rest => (c :: rest).reverse :: ancestorChainRev rest

/-- The visited directories of the walk, in visiting order. -/
def ancestorChain (p : List String) : List (List String) := ancestorChainRev p.reverse

/-- The root-file candidates of one package: the `root_files` entries
that exist as regular files, in listed order. -/
def rootCandidates (fs : FS) : List (List String) → List Entry
  | [] => []
  | f :: rest =>
    match fs.findEntry f with
    | some e => if e.isDir then rootCandidates fs rest else e :: rootCandidates fs rest
    | none => rootCandidates fs rest

/-- The directory-scan candidates: for each existing include directory
in listed order, its matches sorted case-insensitively by path. -/
def dirCandidates (fs : FS) (pat : String) (dirs : List (List String)) : List Entry :=
  (dirs.filter (fun d => fs.pathExists d)).flatMap (fun d => dirMatches fs d pat)

/-- All candidates of one package, root files first. -/
def candidates (fs : FS) (pkg : PackageSpec) : List Entry :=
  rootCandidates fs pkg.root_files ++ dirCandidates fs pkg.file_pattern pkg.include_dirs

/-- First-seen-wins deduplication by root-relative posix path, starting
from the already-seen set `seen`. -/
def dedupNew (seen : List String) : List Entry → List Entry
  | [] => []
  | e :: rest =>
    let rel := relStr e.path
    if rel ∈ seen then dedupNew seen rest
    else e :: dedupNew (rel :: seen) rest

/-- The ordered, deduplicated file list one `create_package` run
collects: root files that exist, in listed order, then for each existing
include directory in listed order its pattern matches sorted
case-insensitively by root-relative posix path, each root-relative path
kept only at its first occurrence. -/
def collectEntries (fs : FS) (pkg : PackageSpec) : List Entry :=
  dedupNew [] (candidates fs pkg)

/-- Read every entry in order, stopping at the first failure; on success
return each entry paired with its content. -/
def readAll : List Entry → Except ReadError (List (Entry × String))
  | [] => .ok []
  | e :: rest =>
    match e.content with
    | .error err => .error err
    | .ok c =>
      match readAll rest with
      | .error err => .error err
      | .ok l => .ok ((e, c) :: l)

/-- Render the sections of the read files, numbering them from
`n + 1`. -/
def renderFrom (n : Nat) : List (Entry × String) → List String
  | [] => []
  | (e, c) :: rest => sectionText (n + 1) (relStr e.path) e.ctime e.mtime c :: renderFrom (n + 1) rest

/-- The include directories that do not exist, in listed order. -/
def missingDirs (fs : FS) (dirs : List (List String)) : List (List String) :=
  dirs.filter (fun d => !fs.pathExists d)

/-- The `PackageOutput` produced from the read collected files `ps`:
staged form of `create_package`'s result. -/
def packageOutputOf (fs : FS) (pkg : PackageSpec) (ts : String) (now : DateTime)
    (ps : List (Entry × String)) : PackageOutput :=
  let toc := ps.map (fun p => relStr p.1.path)
  let sections := renderFrom 0 ps
  let toc_lines := [eq76Line, "// TABLE OF CONTENTS\n", eq76Line] ++
    tocEntryLines 1 toc ++
    (if toc.isEmpty then ["// (no files included)\n"] else []) ++ [eq76Close]
  { filename := ts ++ "_" ++ PROJECT_TITLE ++ "_" ++ pkg.suffix ++ ".txt"
    tocEntries := toc
    sections := sections
    tocLines := toc_lines
    warnings := (missingDirs fs pkg.include_dirs).map warnMsg
    headerTime := formatTimestamp now
    text := docHeader pkg.description (formatTimestamp now) ++
      String.join toc_lines ++ String.join sections
    count := sections.length }

/-! ### Reification of the collection loops

The imperative loops of `create_package` are shown equal to the staged
pipeline: deduplicate the candidate list, read every file in order
(the first failure aborts), render the sections. -/

theorem ok_bind {α β : Type} (a : α) (f : α → Except ReadError β) :
    (Except.ok a >>= f) = f a := rfl

theorem error_bind {α β : Type} (err : ReadError) (f : α → Except ReadError β) :
    ((Except.error err : Except ReadError α) >>= f) = Except.error err := rfl

theorem addFile_err (st : CollectSt) (e : Entry) (err : ReadError)
    (hc : e.content = .error err) : addFile st e = .error err := by
  simp [addFile, hc, error_bind]

theorem addFile_ok (st : CollectSt) (e : Entry) (c : String)
    (hc : e.content = .ok c) :
    addFile st e = .ok { st with
      contents := st.contents ++
        [sectionText (st.toc.length + 1) (relStr e.path) e.ctime e.mtime c]
      toc := st.toc ++ [relStr e.path] } := by
  simp [addFile, hc, ok_bind]

theorem renderFrom_length (n : Nat) (l : List (Entry × String)) :
    (renderFrom n l).length = l.length := by
  induction l generalizing n with
  | nil => rfl
  | cons p rest ih => cases p with | mk e c => simp [renderFrom, ih]

theorem renderFrom_append (n : Nat) (a b : List (Entry × String)) :
    renderFrom n (a ++ b) = renderFrom n a ++ renderFrom (n + a.length) b := by
  induction a generalizing n with
  | nil => simp [renderFrom]
  | cons p rest ih =>
    cases p with
    | mk e c =>
      have harith : n + 1 + rest.length = n + (rest.length + 1) := by omega
      simp only [List.cons_append, renderFrom, List.length_cons, List.append_eq]
      rw [ih, harith]

theorem renderFrom_getElem (n : Nat) (l : List (Entry × String)) (i : Nat)
    (h : i < (renderFrom n l).length) (h' : i < l.length) :
    (renderFrom n l)[i] =
      sectionText (n + i + 1) (relStr l[i].1.path) l[i].1.ctime l[i].1.mtime l[i].2 := by
  induction l generalizing n i with
  | nil => simp at h'
  | cons p rest ih =>
    cases p with
    | mk e c =>
      cases i with
      | zero => simp [renderFrom]
      | succ j =>
        have hj : j < rest.length := by simpa using h'
        have hjr : j < (renderFrom (n + 1) rest).length := by
          simpa [renderFrom_length] using hj
        have harith : n + 1 + j + 1 = n + (j + 1) + 1 := by omega
        simp only [renderFrom, List.getElem_cons_succ]
        rw [ih (n + 1) j hjr hj, harith]

theorem readAll_ok_fst {es : List Entry} {l : List (Entry × String)}
    (h : readAll es = .ok l) : l.map Prod.fst = es := by
  induction es generalizing l with
  | nil =>
    simp [readAll] at h
    subst h
    rfl
  | cons e rest ih =>
    cases hc : e.content with
    | error err => simp [readAll, hc] at h
    | ok c =>
      cases hr : readAll rest with
      | error err => simp [readAll, hc, hr] at h
      | ok l' =>
        simp [readAll, hc, hr] at h
        subst h
        simp [ih hr]

theorem readAll_ok_content {es : List Entry} {l : List (Entry × String)}
    (h : readAll es = .ok l) : ∀ p ∈ l, p.1.content = .ok p.2 := by
  induction es generalizing l with
  | nil =>
    simp [readAll] at h
    subst h
    simp
  | cons e rest ih =>
    cases hc : e.content with
    | error err => simp [readAll, hc] at h
    | ok c =>
      cases hr : readAll rest with
      | error err => simp [readAll, hc, hr] at h
      | ok l' =>
        simp [readAll, hc, hr] at h
        subst h
        intro p hp
        rcases List.mem_cons.1 hp with h1 | h1
        · subst h1; exact hc
        · exact ih hr p h1

theorem readAll_ok_of_all {es : List Entry}
    (h : ∀ e ∈ es, e.content.isOk = true) : ∃ l, readAll es = .ok l := by
  induction es with
  | nil => exact ⟨[], rfl⟩
  | cons e rest ih =>
    have he : e.content.isOk = true := h e (List.mem_cons_self e rest)
    cases hc : e.content with
    | error err => rw [hc] at he; simp [Except.isOk, Except.toBool] at he
    | ok c =>
      obtain ⟨l, hl⟩ := ih (fun x hx => h x (List.mem_cons_of_mem e hx))
      exact ⟨(e, c) :: l, by simp [readAll, hc, hl]⟩

theorem readAll_err {es : List Entry} {e : Entry}
    (he : e ∈ es) (hc : e.content.isOk = false) : (readAll es).isOk = false := by
  induction es with
  | nil => cases he
  | cons e0 rest ih =>
    cases hc0 : e0.content with
    | error err => simp [readAll, hc0, Except.isOk, Except.toBool]
    | ok c =>
      rcases List.mem_cons.1 he with h1 | h1
      · subst h1; rw [hc0] at hc; simp [Except.isOk, Except.toBool] at hc
      · have hrec := ih h1
        cases hr : readAll rest with
        | error err => simp [readAll, hc0, hr, Except.isOk, Except.toBool]
        | ok l => rw [hr] at hrec; simp [Except.isOk, Except.toBool] at hrec

theorem readAll_append (a b : List Entry) :
    readAll (a ++ b) =
      (readAll a).bind (fun la => (readAll b).map (fun lb => la ++ lb)) := by
  induction a with
  | nil =>
    cases hb : readAll b with
    | error err => simp [readAll, hb, Except.bind, Except.map]
    | ok l => simp [readAll, hb, Except.bind, Except.map]
  | cons e rest ih =>
    cases hc : e.content with
    | error err => simp [readAll, hc, Except.bind]
    | ok c =>
      simp only [List.cons_append, readAll, hc, List.append_eq]
      rw [ih]
      cases hr : readAll rest with
      | error err => simp [Except.bind]
      | ok l =>
        cases hb : readAll b with
        | error err => simp [Except.bind, Except.map]
        | ok lb => simp [Except.bind, Except.map]

theorem dedupNew_append (s : List String) (a b : List Entry) :
    dedupNew s (a ++ b) =
      dedupNew s a ++
        dedupNew (((dedupNew s a).map (fun e => relStr e.path)).reverse ++ s) b := by
  induction a generalizing s with
  | nil => simp [dedupNew]
  | cons e rest ih =>
    by_cases hm : relStr e.path ∈ s
    · simp only [List.cons_append, dedupNew, if_pos hm, List.append_eq]
      exact ih s
    · simp only [List.cons_append, dedupNew, if_neg hm, List.append_eq]
      rw [ih (relStr e.path :: s)]
      simp [List.append_assoc]

theorem dedupNew_nodup (s : List String) (l : List Entry) :
    ((dedupNew s l).map (fun e => relStr e.path)).Nodup ∧
      ∀ r ∈ (dedupNew s l).map (fun e => relStr e.path), r ∉ s := by
  induction l generalizing s with
  | nil => simp [dedupNew]
  | cons e rest ih =>
    by_cases hm : relStr e.path ∈ s
    · simpa [dedupNew, if_pos hm] using ih s
    · obtain ⟨ihn, ihs⟩ := ih (relStr e.path :: s)
      refine ⟨?_, ?_⟩
      · simp only [dedupNew, if_neg hm, List.map_cons, List.nodup_cons]
        refine ⟨?_, ihn⟩
        intro hmem
        exact ihs _ hmem (List.mem_cons_self _ _)
      · intro r hr
        simp only [dedupNew, if_neg hm, List.map_cons, List.mem_cons] at hr
        rcases hr with h1 | h1
        · subst h1; exact hm
        · intro hrs
          exact ihs r h1 (List.mem_cons_of_mem _ hrs)

theorem processMatches_spec (fs : FS) (l : List Entry) (st : CollectSt) :
    processMatches fs st l =
      match readAll (dedupNew st.seen l) with
      | .error err => .error err
      | .ok ps =>
          .ok { contents := st.contents ++ renderFrom st.toc.length ps
                toc := st.toc ++ ps.map (fun p => relStr p.1.path)
                seen := (ps.map (fun p => relStr p.1.path)).reverse ++ st.seen
                warnings := st.warnings } := by
  induction l generalizing st with
  | nil => simp [processMatches, dedupNew, readAll, renderFrom]
  | cons e rest ih =>
    by_cases hm : relStr e.path ∈ st.seen
    · simp only [processMatches, if_pos hm, dedupNew]
      exact ih st
    · cases hc : e.content with
      | error err =>
        simp only [processMatches, if_neg hm, dedupNew, readAll, hc]
        rw [addFile_err st e err hc, error_bind]
      | ok c =>
        simp only [processMatches, if_neg hm]
        rw [addFile_ok st e c hc, ok_bind, ih]
        dsimp only
        simp only [dedupNew, if_neg hm, readAll, hc]
        cases hr : readAll (dedupNew (relStr e.path :: st.seen) rest) with
        | error err => rfl
        | ok ps =>
          simp [CollectSt.mk.injEq, renderFrom, List.append_assoc]

theorem processRootFiles_eq (fs : FS) (fl : List (List String)) (st : CollectSt) :
    processRootFiles fs st fl = processMatches fs st (rootCandidates fs fl) := by
  induction fl generalizing st with
  | nil => simp [processRootFiles, rootCandidates, processMatches]
  | cons f rest ih =>
    cases hf : fs.findEntry f with
    | none => simp [processRootFiles, rootCandidates, hf, ih]
    | some e =>
      have hpath : e.path = f := by
        have hp := List.find?_some hf
        simpa using hp
      subst hpath
      cases hd : e.isDir with
      | true => simp [processRootFiles, rootCandidates, hf, hd, ih]
      | false =>
        by_cases hm : relStr e.path ∈ st.seen
        · simp [processRootFiles, rootCandidates, hf, hd, if_pos hm, ih, processMatches]
        · simp only [processRootFiles, rootCandidates, hf, hd, Bool.false_eq_true,
            if_false, if_neg hm, processMatches]
          cases ha : addFile st e with
          | error err => rw [error_bind, error_bind]
          | ok st' => rw [ok_bind, ok_bind, ih]

theorem processDirs_spec (fs : FS) (pat : String) (dirs : List (List String))
    (st : CollectSt) :
    processDirs fs pat st dirs =
      match readAll (dedupNew st.seen (dirCandidates fs pat dirs)) with
      | .error err => .error err
      | .ok ps =>
          .ok { contents := st.contents ++ renderFrom st.toc.length ps
                toc := st.toc ++ ps.map (fun p => relStr p.1.path)
                seen := (ps.map (fun p => relStr p.1.path)).reverse ++ st.seen
                warnings := st.warnings ++ (missingDirs fs dirs).map warnMsg } := by
  induction dirs generalizing st with
  | nil => simp [processDirs, dirCandidates, missingDirs, dedupNew, readAll, renderFrom]
  | cons d rest ih =>
    cases hd : fs.pathExists d with
    | false =>
      have hstep : processDirs fs pat st (d :: rest) =
          processDirs fs pat { st with warnings := st.warnings ++ [warnMsg d] } rest := by
        simp [processDirs, hd]
      have hcand : dirCandidates fs pat (d :: rest) = dirCandidates fs pat rest := by
        simp [dirCandidates, List.filter_cons, hd]
      have hmiss : missingDirs fs (d :: rest) = d :: missingDirs fs rest := by
        simp [missingDirs, List.filter_cons, hd]
      rw [hstep, ih, hcand, hmiss]
      cases hr : readAll (dedupNew st.seen (dirCandidates fs pat rest)) with
      | error err => rfl
      | ok ps => simp
    | true =>
      have hstep : processDirs fs pat st (d :: rest) =
          processMatches fs st (dirMatches fs d pat) >>=
            (fun st' => processDirs fs pat st' rest) := by
        simp [processDirs, hd]
      have hcand : dirCandidates fs pat (d :: rest) =
          dirMatches fs d pat ++ dirCandidates fs pat rest := by
        simp [dirCandidates, List.filter_cons, hd]
      have hmiss : missingDirs fs (d :: rest) = missingDirs fs rest := by
        simp [missingDirs, List.filter_cons, hd]
      rw [hstep, processMatches_spec, hcand, hmiss, dedupNew_append, readAll_append]
      cases hr1 : readAll (dedupNew st.seen (dirMatches fs d pat)) with
      | error err => rw [error_bind]; simp [Except.bind]
      | ok ps1 =>
        rw [ok_bind]
        simp only [Except.bind]
        rw [ih]
        have hfst : ps1.map Prod.fst = dedupNew st.seen (dirMatches fs d pat) :=
          readAll_ok_fst hr1
        have hmap : ps1.map (fun p => relStr p.1.path) =
            (dedupNew st.seen (dirMatches fs d pat)).map (fun e => relStr e.path) := by
          rw [← hfst, List.map_map]
          rfl
        rw [← hmap]
        dsimp only
        cases hr2 : readAll
            (dedupNew ((ps1.map (fun p => relStr p.1.path)).reverse ++ st.seen)
              (dirCandidates fs pat rest)) with
        | error err => simp [Except.map]
        | ok ps2 =>
          have hlen : ps1.length = (ps1.map (fun p => relStr p.1.path)).length := by
            simp
          simp only [Except.map]
          simp [CollectSt.mk.injEq, renderFrom_append, List.append_assoc,
            renderFrom_length, ← hlen]

theorem createPackage_spec (fs : FS) (pkg : PackageSpec) (ts : String) (now : DateTime) :
    createPackage fs pkg ts now =
      match readAll (collectEntries fs pkg) with
      | .error err => .error err
      | .ok ps => .ok (packageOutputOf fs pkg ts now ps) := by
  simp only [createPackage]
  rw [processRootFiles_eq, processMatches_spec]
  unfold collectEntries candidates
  rw [dedupNew_append, readAll_append]
  dsimp only
  cases hr1 : readAll (dedupNew [] (rootCandidates fs pkg.root_files)) with
  | error err => rw [error_bind]; simp [Except.bind]
  | ok ps1 =>
    rw [ok_bind, processDirs_spec]
    simp only [Except.bind]
    have hfst : ps1.map Prod.fst = dedupNew [] (rootCandidates fs pkg.root_files) :=
      readAll_ok_fst hr1
    have hmap : ps1.map (fun p => relStr p.1.path) =
        (dedupNew [] (rootCandidates fs pkg.root_files)).map (fun e => relStr e.path) := by
      rw [← hfst, List.map_map]
      rfl
    rw [← hmap]
    cases hr2 : readAll
        (dedupNew ((ps1.map (fun p => relStr p.1.path)).reverse ++ [])
          (dirCandidates fs pkg.file_pattern pkg.include_dirs)) with
    | error err => rw [error_bind]; simp [Except.map]
    | ok ps2 =>
      have hlen : ps1.length = (ps1.map (fun p => relStr p.1.path)).length := by
        simp
      rw [ok_bind]
      simp only [Except.map]
      simp [packageOutputOf, PackageOutput.mk.injEq, renderFrom_append,
        renderFrom_length, List.append_assoc, ← hlen]

/-! ### The root locator as a search over the ancestor chain -/

theorem rootSearchRev_eq_find (ex : List String → Bool) (l : List String) :
    rootSearchRev ex l =
      (ancestorChainRev l).find? (fun c => ex (c ++ [markerFile])) := by
  induction l with
  | nil => rfl
  | cons c rest ih =>
    cases hex : ex ((c :: rest).reverse ++ [markerFile]) with
    | true =>
      rw [rootSearchRev, if_pos hex, ancestorChainRev,
        List.find?_cons_of_pos _ (by simpa using hex)]
    | false =>
      rw [rootSearchRev, if_neg (by simp only [hex]; simp), ancestorChainRev,
        List.find?_cons_of_neg _ (by simpa using hex), ih]

theorem findProjectRoot_eq_find (ex : List String → Bool) (start : List String) :
    findProjectRoot ex start =
      ((ancestorChain start).find? (fun c => ex (c ++ [markerFile]))).getD start := by
  unfold findProjectRoot ancestorChain
  rw [rootSearchRev_eq_find]

theorem ancestorChainRev_mem (l : List String) :
    ∀ c ∈ ancestorChainRev l, c ≠ [] ∧ c.reverse <:+ l := by
  induction l with
  | nil => intro c hc; cases hc
  | cons x rest ih =>
    intro c hc
    rcases List.mem_cons.1 hc with h1 | h1
    · subst h1
      refine ⟨by simp, ?_⟩
      simp
    · obtain ⟨hne, hsuf⟩ := ih c h1
      exact ⟨hne, hsuf.trans (List.suffix_cons x rest)⟩

theorem root_not_mem_ancestorChain (start : List String) :
    ([] : List String) ∉ ancestorChain start := by
  intro h
  exact (ancestorChainRev_mem start.reverse [] h).1 rfl

/-! ### Rendering helpers -/

theorem tocEntryLines_length (k : Nat) (l : List String) :
    (tocEntryLines k l).length = l.length := by
  induction l generalizing k with
  | nil => rfl
  | cons e rest ih => simp [tocEntryLines, ih]

theorem tocEntryLines_getElem (l : List String) (k i : Nat)
    (h : i < (tocEntryLines k l).length) (h' : i < l.length) :
    (tocEntryLines k l)[i] = "// " ++ padNum 3 (k + i) ++ ". " ++ l[i] ++ "\n" := by
  induction l generalizing k i with
  | nil => simp at h'
  | cons e rest ih =>
    cases i with
    | zero => simp [tocEntryLines]
    | succ j =>
      have hj : j < rest.length := by simpa using h'
      have hjt : j < (tocEntryLines (k + 1) rest).length := by
        simpa [tocEntryLines_length] using hj
      have harith : k + 1 + j = k + (j + 1) := by omega
      simp only [tocEntryLines, List.getElem_cons_succ]
      rw [ih (k + 1) j hjt hj, harith]

theorem dropWhile_head_not {p : Char → Bool} :
    ∀ (l : List Char) {a : Char}, (l.dropWhile p).head? = some a → p a = false := by
  intro l
  induction l with
  | nil => intro a h; simp [List.dropWhile] at h
  | cons x xs ih =>
    intro a h
    by_cases hx : p x = true
    · rw [List.dropWhile_cons_of_pos hx] at h
      exact ih h
    · rw [List.dropWhile_cons_of_neg hx] at h
      simp at h
      subst h
      simpa using hx

theorem rstrip_no_trailing (s : String) (ch : Char)
    (h : (rstrip s).data.getLast? = some ch) : pyIsSpace ch = false := by
  unfold rstrip at h
  have h' : ((s.data.reverse.dropWhile pyIsSpace).reverse).getLast? = some ch := h
  rw [List.getLast?_reverse] at h'
  exact dropWhile_head_not _ h'

/-! ### Fixed-width decimal rendering is monotone in the rendered number -/

theorem natToDigitsFix_length (w n : Nat) : (natToDigitsFix w n).length = w := by
  induction w generalizing n with
  | zero => rfl
  | succ w ih => simp [natToDigitsFix, ih]

theorem digitChar_lt_digitChar :
    ∀ d1 < 10, ∀ d2 < 10, d1 < d2 → digitChar d1 < digitChar d2 := by decide

theorem lex_append_congr :
    ∀ (xs ys as bs : List Char), xs.length = ys.length →
      List.Lex (· < ·) xs ys → List.Lex (· < ·) (xs ++ as) (ys ++ bs) := by
  intro xs
  induction xs with
  | nil =>
    intro ys as bs hlen hlex
    cases ys with
    | nil => cases hlex
    | cons y ys' => simp at hlen
  | cons x xs' ih =>
    intro ys as bs hlen hlex
    cases ys with
    | nil => simp at hlen
    | cons y ys' =>
      cases hlex with
      | cons h => exact List.Lex.cons (ih ys' as bs (by simpa using hlen) h)
      | rel h => exact List.Lex.rel h

theorem lex_append_left (xs : List Char) {as bs : List Char}
    (h : List.Lex (· < ·) as bs) : List.Lex (· < ·) (xs ++ as) (xs ++ bs) := by
  induction xs with
  | nil => exact h
  | cons x xs' ih => exact List.Lex.cons ih

theorem natToDigitsFix_lt {w n1 n2 : Nat} (h12 : n1 < n2) (h2 : n2 < 10 ^ w) :
    List.Lex (· < ·) (natToDigitsFix w n1) (natToDigitsFix w n2) := by
  induction w generalizing n1 n2 with
  | zero =>
    exfalso
    simp [pow_zero] at h2
    omega
  | succ w ih =>
    have hq : n1 / 10 ≤ n2 / 10 := Nat.div_le_div_right (le_of_lt h12)
    rcases lt_or_eq_of_le hq with hlt | heq
    · have hq2 : n2 / 10 < 10 ^ w := by
        have hp : (10 : Nat) ^ (w + 1) = 10 ^ w * 10 := pow_succ 10 w
        omega
      simp only [natToDigitsFix]
      exact lex_append_congr _ _ _ _
        (by simp [natToDigitsFix_length]) (ih hlt hq2)
    · have hr : n1 % 10 < n2 % 10 := by omega
      have hd : digitChar (n1 % 10) < digitChar (n2 % 10) :=
        digitChar_lt_digitChar _ (Nat.mod_lt _ (by norm_num)) _
          (Nat.mod_lt _ (by norm_num)) hr
      simp only [natToDigitsFix]
      rw [heq]
      exact lex_append_left _ (List.Lex.rel hd)

theorem digitsLenAux_le {fuel n w : Nat} (hf : n ≤ fuel) (h : n < 10 ^ w) :
    digitsLenAux fuel n ≤ w := by
  induction fuel generalizing n w with
  | zero => simp [digitsLenAux]
  | succ f ih =>
    cases n with
    | zero => simp [digitsLenAux]
    | succ m =>
      have hw : w ≠ 0 := by
        intro h0
        subst h0
        simp [pow_zero] at h
      obtain ⟨w', rfl⟩ : ∃ w', w = w' + 1 := ⟨w - 1, by omega⟩
      simp only [digitsLenAux]
      have hdiv : (m + 1) / 10 ≤ f := by omega
      have hlt : (m + 1) / 10 < 10 ^ w' := by
        have hp : (10 : Nat) ^ (w' + 1) = 10 ^ w' * 10 := pow_succ 10 w'
        omega
      have := ih hdiv hlt
      omega

theorem digitsLen_le {n w : Nat} (h : n < 10 ^ w) : digitsLen n ≤ w :=
  digitsLenAux_le le_rfl h

theorem padNum_eq_fix {w n : Nat} (h : n < 10 ^ w) :
    padNum w n = String.mk (natToDigitsFix w n) := by
  unfold padNum
  rw [Nat.max_eq_left (digitsLen_le h)]

theorem padNum_data_length {w n : Nat} (h : n < 10 ^ w) : (padNum w n).data.length = w := by
  rw [padNum_eq_fix h]
  exact natToDigitsFix_length w n

theorem padNum_lt {w n1 n2 : Nat} (h12 : n1 < n2) (h2 : n2 < 10 ^ w) :
    List.Lex (· < ·) (padNum w n1).data (padNum w n2).data := by
  rw [padNum_eq_fix (lt_trans h12 h2), padNum_eq_fix h2]
  exact natToDigitsFix_lt h12 h2

/-! ### The output timestamp is monotone: lexicographic order on the
rendered `%Y%m%d_%H%M%S` string matches chronological order -/

/-- Field bounds under which every block of `%Y%m%d_%H%M%S` renders at
its fixed width (true of every real calendar date). -/
def DateTime.Valid (t : DateTime) : Prop :=
  t.year < 10 ^ 4 ∧ t.month < 10 ^ 2 ∧ t.day < 10 ^ 2 ∧
  t.hour < 10 ^ 2 ∧ t.minute < 10 ^ 2 ∧ t.second < 10 ^ 2

instance (t : DateTime) : Decidable t.Valid := by
  unfold DateTime.Valid
  infer_instance

/-- Chronologically strictly earlier, at second precision (the
precision of the filename timestamp). -/
def dtLtSec (a b : DateTime) : Prop :=
  a.year < b.year ∨ (a.year = b.year ∧
    (a.month < b.month ∨ (a.month = b.month ∧
      (a.day < b.day ∨ (a.day = b.day ∧
        (a.hour < b.hour ∨ (a.hour = b.hour ∧
          (a.minute < b.minute ∨ (a.minute = b.minute ∧
            a.second < b.second)))))))))

instance (a b : DateTime) : Decidable (dtLtSec a b) := by
  unfold dtLtSec
  infer_instance

theorem fot_data (t : DateTime) :
    (formatOutputTimestamp t).data =
      (padNum 4 t.year).data ++ ((padNum 2 t.month).data ++ ((padNum 2 t.day).data ++
        (("_" : String).data ++ ((padNum 2 t.hour).data ++ ((padNum 2 t.minute).data ++
          (padNum 2 t.second).data))))) := by
  simp [formatOutputTimestamp, String.data_append, List.append_assoc]

theorem fot_data_length {t : DateTime} (h : t.Valid) :
    (formatOutputTimestamp t).data.length = 15 := by
  obtain ⟨hy, hmo, hd, hh, hmi, hs⟩ := h
  rw [fot_data]
  simp [List.length_append, padNum_data_length hy, padNum_data_length hmo,
    padNum_data_length hd, padNum_data_length hh, padNum_data_length hmi,
    padNum_data_length hs, show (("_" : String).data.length = 1) from rfl]

theorem formatOutputTimestamp_lt {t1 t2 : DateTime} (h1 : t1.Valid) (h2 : t2.Valid)
    (h : dtLtSec t1 t2) :
    List.Lex (· < ·) (formatOutputTimestamp t1).data (formatOutputTimestamp t2).data := by
  obtain ⟨hy1, hmo1, hd1, hh1, hmi1, hs1⟩ := h1
  obtain ⟨hy2, hmo2, hd2, hh2, hmi2, hs2⟩ := h2
  rw [fot_data, fot_data]
  rcases h with hy | ⟨hye, hmo | ⟨hmoe, hd | ⟨hde, hh | ⟨hhe, hmi | ⟨hmie, hs⟩⟩⟩⟩⟩
  · exact lex_append_congr _ _ _ _
      (by rw [padNum_data_length hy1, padNum_data_length hy2]) (padNum_lt hy hy2)
  · rw [hye]
    apply lex_append_left
    exact lex_append_congr _ _ _ _
      (by rw [padNum_data_length hmo1, padNum_data_length hmo2]) (padNum_lt hmo hmo2)
  · rw [hye, hmoe]
    apply lex_append_left
    apply lex_append_left
    exact lex_append_congr _ _ _ _
      (by rw [padNum_data_length hd1, padNum_data_length hd2]) (padNum_lt hd hd2)
  · rw [hye, hmoe, hde]
    apply lex_append_left
    apply lex_append_left
    apply lex_append_left
    apply lex_append_left
    exact lex_append_congr _ _ _ _
      (by rw [padNum_data_length hh1, padNum_data_length hh2]) (padNum_lt hh hh2)
  · rw [hye, hmoe, hde, hhe]
    apply lex_append_left
    apply lex_append_left
    apply lex_append_left
    apply lex_append_left
    apply lex_append_left
    exact lex_append_congr _ _ _ _
      (by rw [padNum_data_length hmi1, padNum_data_length hmi2]) (padNum_lt hmi hmi2)
  · rw [hye, hmoe, hde, hhe, hmie]
    apply lex_append_left
    apply lex_append_left
    apply lex_append_left
    apply lex_append_left
    apply lex_append_left
    apply lex_append_left
    exact padNum_lt hs hs2

theorem string_lt_of_lex {s t : String} (h : List.Lex (· < ·) s.data t.data) : s < t :=
  String.lt_iff_toList_lt.2 h

theorem fot_append_lt {t1 t2 : DateTime} (h1 : t1.Valid) (h2 : t2.Valid)
    (h : dtLtSec t1 t2) (a b : String) :
    formatOutputTimestamp t1 ++ a < formatOutputTimestamp t2 ++ b := by
  apply string_lt_of_lex
  rw [String.data_append, String.data_append]
  exact lex_append_congr _ _ _ _
    (by rw [fot_data_length h1, fot_data_length h2]) (formatOutputTimestamp_lt h1 h2 h)

/-! ### The directory-scan sort relation is a total preorder -/

theorem lexLeB_total : ∀ as bs : List Char, lexLeB as bs = true ∨ lexLeB bs as = true := by
  intro as
  induction as with
  | nil => intro bs; left; rfl
  | cons a as' ih =>
    intro bs
    cases bs with
    | nil => right; rfl
    | cons b bs' =>
      rcases lt_trichotomy a b with hab | hab | hab
      · left; simp [lexLeB, hab]
      · subst hab
        rcases ih bs' with h | h
        · left; simp [lexLeB, h]
        · right; simp [lexLeB, h]
      · right; simp [lexLeB, hab]

theorem lexLeB_trans : ∀ as bs cs : List Char,
    lexLeB as bs = true → lexLeB bs cs = true → lexLeB as cs = true := by
  intro as
  induction as with
  | nil => intro bs cs h1 h2; rfl
  | cons a as' ih =>
    intro bs cs h1 h2
    cases bs with
    | nil => simp [lexLeB] at h1
    | cons b bs' =>
      cases cs with
      | nil => simp [lexLeB] at h2
      | cons c cs' =>
        rcases lt_trichotomy a b with hab | hab | hab
        · rcases lt_trichotomy b c with hbc | hbc | hbc
          · simp [lexLeB, lt_trans hab hbc]
          · subst hbc; simp [lexLeB, hab]
          · exfalso
            rw [lexLeB, if_neg (asymm hbc), if_pos hbc] at h2
            exact Bool.false_ne_true h2
        · subst hab
          rcases lt_trichotomy a c with hac | hac | hac
          · simp [lexLeB, hac]
          · subst hac
            have h1' : lexLeB as' bs' = true := by
              rw [lexLeB, if_neg (lt_irrefl a), if_neg (lt_irrefl a)] at h1
              exact h1
            have h2' : lexLeB bs' cs' = true := by
              rw [lexLeB, if_neg (lt_irrefl a), if_neg (lt_irrefl a)] at h2
              exact h2
            rw [lexLeB, if_neg (lt_irrefl a), if_neg (lt_irrefl a)]
            exact ih bs' cs' h1' h2'
          · exfalso
            rw [lexLeB, if_neg (asymm hac), if_pos hac] at h2
            exact Bool.false_ne_true h2
        · exfalso
          rw [lexLeB, if_neg (asymm hab), if_pos hab] at h1
          exact Bool.false_ne_true h1

instance : IsTotal Entry entryLe := ⟨fun a b => lexLeB_total _ _⟩

instance : IsTrans Entry entryLe := ⟨fun _ _ _ => lexLeB_trans _ _ _⟩

theorem dirMatches_sorted (fs : FS) (base : List String) (pat : String) :
    List.Sorted entryLe (dirMatches fs base pat) :=
  List.sorted_insertionSort entryLe (fs.rglob base pat)

/-! ### Orchestrator characterization and evaluation helpers -/

theorem createPackage_ok_iff {fs : FS} {pkg : PackageSpec} {ts : String} {now : DateTime}
    {out : PackageOutput} :
    createPackage fs pkg ts now = .ok out ↔
      ∃ ps, readAll (collectEntries fs pkg) = .ok ps ∧
        out = packageOutputOf fs pkg ts now ps := by
  rw [createPackage_spec]
  cases hr : readAll (collectEntries fs pkg) with
  | error err => simp
  | ok ps =>
    constructor
    · intro h
      refine ⟨ps, rfl, ?_⟩
      have := Except.ok.inj h
      exact this.symm
    · rintro ⟨ps', hps', rfl⟩
      have : ps = ps' := Except.ok.inj hps'
      subst this
      rfl

theorem createPackage_ok_filename {fs : FS} {pkg : PackageSpec} {ts : String}
    {now : DateTime} {out : PackageOutput} (h : createPackage fs pkg ts now = .ok out) :
    out.filename = ts ++ "_" ++ PROJECT_TITLE ++ "_" ++ pkg.suffix ++ ".txt" := by
  obtain ⟨ps, _, rfl⟩ := createPackage_ok_iff.1 h
  rfl

theorem createPackage_ok_headerTime {fs : FS} {pkg : PackageSpec} {ts : String}
    {now : DateTime} {out : PackageOutput} (h : createPackage fs pkg ts now = .ok out) :
    out.headerTime = formatTimestamp now := by
  obtain ⟨ps, _, rfl⟩ := createPackage_ok_iff.1 h
  simp [packageOutputOf]

theorem runPackages_spec (fs : FS) (ts : String) (readings : Nat → DateTime) :
    ∀ (pl : List PackageSpec) (i : Nat) (outs : List PackageOutput),
      runPackages fs ts readings i pl = .ok outs →
      outs.length = pl.length ∧
      ∀ j (hj : j < outs.length) (hjp : j < pl.length),
        createPackage fs pl[j] ts (readings (i + j)) = .ok outs[j] := by
  intro pl
  induction pl with
  | nil =>
    intro i outs h
    simp [runPackages] at h
    subst h
    exact ⟨rfl, by intro j hj; simp at hj⟩
  | cons p rest ih =>
    intro i outs h
    cases hc : createPackage fs p ts (readings i) with
    | error err =>
      simp only [runPackages] at h
      rw [hc, error_bind] at h
      simp at h
    | ok out =>
      cases hr : runPackages fs ts readings (i + 1) rest with
      | error err =>
        simp only [runPackages] at h
        rw [hc, ok_bind, hr, error_bind] at h
        simp at h
      | ok outs' =>
        simp only [runPackages] at h
        rw [hc, ok_bind, hr, ok_bind] at h
        have h' : out :: outs' = outs := Except.ok.inj h
        subst h'
        obtain ⟨hlen, hall⟩ := ih (i + 1) outs' hr
        refine ⟨by simp [hlen], ?_⟩
        intro j hj hjp
        cases j with
        | zero => simpa using hc
        | succ k =>
          have hk : k < outs'.length := by simpa using hj
          have hkp : k < rest.length := by simpa using hjp
          have hstep := hall k hk hkp
          have harith : i + 1 + k = i + (k + 1) := by omega
          simpa [harith] using hstep

theorem packageAll_spec {fs : FS} {readings : Nat → DateTime} {outs : List PackageOutput}
    (h : packageAll fs readings = .ok outs) :
    outs.length = PACKAGES.length ∧
    ∀ j (hj : j < outs.length) (hjp : j < PACKAGES.length),
      createPackage fs PACKAGES[j] (formatOutputTimestamp (readings 0))
        (readings (1 + j)) = .ok outs[j] :=
  runPackages_spec fs (formatOutputTimestamp (readings 0)) readings PACKAGES 1 outs h

/-- A fallback output used only to make `Except` projections total. -/
def emptyOutput : PackageOutput := ⟨"", [], [], [], [], "", "", 0⟩

/-- Project the output of one successful `create_package` run. -/
def getOut (x : Except ReadError PackageOutput) : PackageOutput :=
  match x with
  | .ok o => o
  | .error _ => emptyOutput

/-- Project the outputs of one successful `package_all` run. -/
def getOuts (x : Except ReadError (List PackageOutput)) : List PackageOutput :=
  match x with
  | .ok l => l
  | .error _ => []

/-- A sample stat timestamp. -/
def dtA : DateTime := ⟨2025, 11, 18, 12, 34, 56, 789000⟩

/-- A second sample stat timestamp. -/
def dtB : DateTime := ⟨2025, 11, 18, 12, 34, 57, 1000⟩

/-- A clock whose n-th reading differs from the others in its
millisecond field. -/
def rEx : Nat → DateTime := fun n => ⟨2025, 11, 18, 12, 34, 56, n * 1000⟩

/-- A sample project tree: manifest, `src` directory with three Rust
files (one with trailing whitespace), no `tests` directory. -/
def fsEx : FS :=
  ⟨[⟨["Cargo.toml"], false, .ok "[package]", dtA, dtA⟩,
    ⟨["src"], true, .error .isADirectory, dtA, dtA⟩,
    ⟨["src", "lib.rs"], false, .ok "fn a();  \n", dtA, dtB⟩,
    ⟨["src", "B.rs"], false, .ok "mod b;", dtA, dtA⟩,
    ⟨["src", "a.rs"], false, .ok "mod a;", dtA, dtA⟩]⟩

/-- `fsEx` plus an unreadable file under `src`. -/
def fsBad : FS :=
  ⟨fsEx.entries ++ [⟨["src", "bad.rs"], false, .error .permissionDenied, dtA, dtA⟩]⟩

/-- A tree in which a directory's own name matches the `*.rs` pattern. -/
def fsC9 : FS :=
  ⟨[⟨["src"], true, .error .isADirectory, dtA, dtA⟩,
    ⟨["src", "dir.rs"], true, .error .isADirectory, dtA, dtA⟩,
    ⟨["src", "dir.rs", "inner.rs"], false, .ok "mod inner;", dtA, dtA⟩,
    ⟨["src", "lib.rs"], false, .ok "mod dir;", dtA, dtA⟩]⟩

/-- An `exists` predicate for a filesystem whose only marker file sits
in the filesystem root. -/
def exRootOnly : List String → Bool := fun p => p == [markerFile]

/-! ### The claims -/

/-- Claim C1: for every `PackageSpec` and project root, the collector
produces exactly `collectEntries`: the `rootFiles` entries that exist,
in listed order, then for each `includeDirs` entry in listed order the
files under it matching `filePattern` sorted case-insensitively by
root-relative posix path (`dirMatches` is sorted under `entryLe`), with
first-seen-wins deduplication by relative path, so each path appears at
most once (`Nodup`) and a path collected from `rootFiles` is never
re-included by the traversal. -/
theorem claim_C1 (fs : FS) (pkg : PackageSpec) (ts : String) (now : DateTime)
    (out : PackageOutput) (h : createPackage fs pkg ts now = .ok out) :
    out.tocEntries = (collectEntries fs pkg).map (fun e => relStr e.path) ∧
    out.tocEntries.Nodup ∧
    (∀ d ∈ pkg.include_dirs, List.Sorted entryLe (dirMatches fs d pkg.file_pattern)) := by
  obtain ⟨ps, hra, rfl⟩ := createPackage_ok_iff.1 h
  have hmap : ps.map (fun p => relStr p.1.path) =
      (collectEntries fs pkg).map (fun e => relStr e.path) := by
    rw [← readAll_ok_fst hra, List.map_map]
    rfl
  refine ⟨?_, ?_, ?_⟩
  · simpa [packageOutputOf] using hmap
  · have hnd := (dedupNew_nodup [] (candidates fs pkg)).1
    have : (packageOutputOf fs pkg ts now ps).tocEntries =
        (collectEntries fs pkg).map (fun e => relStr e.path) := by
      simpa [packageOutputOf] using hmap
    rw [this]
    exact hnd
  · intro d _
    exact dirMatches_sorted fs d pkg.file_pattern

/-- Claim C1 witness: the sample tree, `src` package. -/
theorem claim_C1_witness :
    createPackage fsEx pkgSrc "20251118_123456" dtA =
      .ok (getOut (createPackage fsEx pkgSrc "20251118_123456" dtA)) ∧
    (getOut (createPackage fsEx pkgSrc "20251118_123456" dtA)).tocEntries =
      (collectEntries fsEx pkgSrc).map (fun e => relStr e.path) ∧
    (getOut (createPackage fsEx pkgSrc "20251118_123456" dtA)).tocEntries.Nodup := by
  have h : createPackage fsEx pkgSrc "20251118_123456" dtA =
      .ok (getOut (createPackage fsEx pkgSrc "20251118_123456" dtA)) := by rfl
  have hc := claim_C1 fsEx pkgSrc "20251118_123456" dtA _ h
  exact ⟨h, hc.1, hc.2.1⟩

/-- Claim C2: in every successful run each collected relative path
appears exactly once in the table of contents (`Nodup`), the TOC lines
are rendered from the collected paths in the same order as the body's
sections (section i names the i-th TOC entry), and the printed section
index and printed TOC index of position i are both `i + 1`
(3-digit zero-padded). -/
theorem claim_C2 (fs : FS) (pkg : PackageSpec) (ts : String) (now : DateTime)
    (out : PackageOutput) (h : createPackage fs pkg ts now = .ok out) :
    out.tocEntries.Nodup ∧
    out.sections.length = out.tocEntries.length ∧
    out.tocLines = [eq76Line, "// TABLE OF CONTENTS\n", eq76Line] ++
      tocEntryLines 1 out.tocEntries ++
      (if out.tocEntries.isEmpty then ["// (no files included)\n"] else []) ++
      [eq76Close] ∧
    (∀ i (h1 : i < out.tocEntries.length) (h2 : i < out.sections.length),
      ∃ ct mt c, out.sections[i] = sectionText (i + 1) out.tocEntries[i] ct mt c) ∧
    (∀ i (h3 : i < (tocEntryLines 1 out.tocEntries).length)
        (h1 : i < out.tocEntries.length),
      (tocEntryLines 1 out.tocEntries)[i] =
        "// " ++ padNum 3 (i + 1) ++ ". " ++ out.tocEntries[i] ++ "\n") := by
  obtain ⟨ps, hra, rfl⟩ := createPackage_ok_iff.1 h
  have hmap : ps.map (fun p => relStr p.1.path) =
      (collectEntries fs pkg).map (fun e => relStr e.path) := by
    rw [← readAll_ok_fst hra, List.map_map]
    rfl
  refine ⟨?_, ?_, ?_, ?_, ?_⟩
  · have hnd := (dedupNew_nodup [] (candidates fs pkg)).1
    have heq : (packageOutputOf fs pkg ts now ps).tocEntries =
        (collectEntries fs pkg).map (fun e => relStr e.path) := by
      simpa [packageOutputOf] using hmap
    rw [heq]
    exact hnd
  · simp [packageOutputOf, renderFrom_length]
  · simp [packageOutputOf]
  · intro i h1 h2
    have hps : i < ps.length := by
      have := h2
      simpa [packageOutputOf, renderFrom_length] using this
    have hmaplen : i < (ps.map (fun p => relStr p.1.path)).length := by
      simpa using hps
    refine ⟨ps[i].1.ctime, ps[i].1.mtime, ps[i].2, ?_⟩
    have hsec : (packageOutputOf fs pkg ts now ps).sections[i] =
        sectionText (0 + i + 1) (relStr ps[i].1.path) ps[i].1.ctime ps[i].1.mtime
          ps[i].2 := by
      have hrf : i < (renderFrom 0 ps).length := by simpa [renderFrom_length] using hps
      simpa [packageOutputOf] using renderFrom_getElem 0 ps i hrf hps
    have htoc : (packageOutputOf fs pkg ts now ps).tocEntries[i] =
        relStr ps[i].1.path := by
      simp [packageOutputOf]
    rw [hsec, htoc]
    congr 1
    omega
  · intro i h3 h1
    have harith : 1 + i = i + 1 := by omega
    rw [tocEntryLines_getElem _ 1 i h3 h1, harith]

/-- Claim C2 witness: the sample tree, `src` package. -/
theorem claim_C2_witness :
    createPackage fsEx pkgSrc "20251118_123456" dtB =
      .ok (getOut (createPackage fsEx pkgSrc "20251118_123456" dtB)) ∧
    (getOut (createPackage fsEx pkgSrc "20251118_123456" dtB)).tocEntries.Nodup ∧
    (getOut (createPackage fsEx pkgSrc "20251118_123456" dtB)).sections.length =
      (getOut (createPackage fsEx pkgSrc "20251118_123456" dtB)).tocEntries.length := by
  have h : createPackage fsEx pkgSrc "20251118_123456" dtB =
      .ok (getOut (createPackage fsEx pkgSrc "20251118_123456" dtB)) := by rfl
  have hc := claim_C2 fsEx pkgSrc "20251118_123456" dtB _ h
  exact ⟨h, hc.1, hc.2.1⟩

/-- Claim C3 counterexample: with the marker file present only in the
filesystem root (`exRootOnly` holds exactly at `/Cargo.toml`) and start
directory `/a`, an ancestor directory — the root — contains the marker,
yet the walk returns the starting directory `/a` (which does not contain
the marker) instead of the marker directory: the loop guard
`cur != cur.parent` stops the walk before the root is ever examined. -/
theorem claim_C3_counterexample :
    exRootOnly (([] : List String) ++ [markerFile]) = true ∧
    exRootOnly ((["a"] : List String) ++ [markerFile]) = false ∧
    findProjectRoot exRootOnly ["a"] = ["a"] := by decide

/-- Claim C3 (amended): the Root Locator walks upward from the starting
directory through its ancestors strictly below the filesystem root,
returning the first that contains `Cargo.toml`; the filesystem root
itself is never examined, and when no examined ancestor contains the
marker — even if the root itself does — the original starting directory
is returned unchanged.  The locator is a total function: no error is
raised. -/
theorem claim_C3_amended (ex : List String → Bool) (start : List String) :
    findProjectRoot ex start =
      ((ancestorChain start).find? (fun c => ex (c ++ [markerFile]))).getD start ∧
    ([] : List String) ∉ ancestorChain start ∧
    (∀ c ∈ ancestorChain start, c ≠ [] ∧ c <+: start) := by
  refine ⟨findProjectRoot_eq_find ex start, root_not_mem_ancestorChain start, ?_⟩
  intro c hc
  obtain ⟨hne, hsuf⟩ := ancestorChainRev_mem start.reverse c hc
  exact ⟨hne, by rwa [List.reverse_suffix] at hsuf⟩

/-- Claim C4: a missing include directory is warned about and skipped,
and (as long as no collected file fails to read) the run still completes
and produces a document; when nothing at all is collected the table of
contents carries the placeholder line. -/
theorem claim_C4 (fs : FS) (pkg : PackageSpec) (ts : String) (now : DateTime)
    (d : List String) (hd : d ∈ pkg.include_dirs) (hne : fs.pathExists d = false)
    (hok : ∀ e ∈ collectEntries fs pkg, e.content.isOk = true) :
    (createPackage fs pkg ts now).isOk = true ∧
    ∀ out, createPackage fs pkg ts now = .ok out →
      warnMsg d ∈ out.warnings ∧
      (out.tocEntries = [] → "// (no files included)\n" ∈ out.tocLines) := by
  obtain ⟨ps, hra⟩ := readAll_ok_of_all hok
  have hcp : createPackage fs pkg ts now = .ok (packageOutputOf fs pkg ts now ps) := by
    rw [createPackage_spec, hra]
  refine ⟨by rw [hcp]; rfl, ?_⟩
  intro out hout
  rw [hcp] at hout
  have hoe : packageOutputOf fs pkg ts now ps = out := Except.ok.inj hout
  subst hoe
  constructor
  · have hdm : d ∈ missingDirs fs pkg.include_dirs :=
      List.mem_filter.2 ⟨hd, by simp [hne]⟩
    have : warnMsg d ∈ (missingDirs fs pkg.include_dirs).map warnMsg :=
      List.mem_map_of_mem warnMsg hdm
    simpa [packageOutputOf] using this
  · intro hempty
    have hempty' : ps.map (fun p => relStr p.1.path) = [] := by
      simpa [packageOutputOf] using hempty
    simp [packageOutputOf, hempty', tocEntryLines]

/-- Claim C4 witness: the sample tree has no `tests` directory; the
`tests` package warns, completes, and emits the placeholder. -/
theorem claim_C4_witness :
    (["tests"] ∈ pkgTests.include_dirs ∧ fsEx.pathExists ["tests"] = false ∧
      (∀ e ∈ collectEntries fsEx pkgTests, e.content.isOk = true)) ∧
    (createPackage fsEx pkgTests "ts" dtA).isOk = true ∧
    warnMsg ["tests"] ∈ (getOut (createPackage fsEx pkgTests "ts" dtA)).warnings ∧
    "// (no files included)\n" ∈ (getOut (createPackage fsEx pkgTests "ts" dtA)).tocLines := by
  have h1 : ["tests"] ∈ pkgTests.include_dirs := by decide
  have h2 : fsEx.pathExists ["tests"] = false := by decide
  have h3 : ∀ e ∈ collectEntries fsEx pkgTests, e.content.isOk = true := by decide
  have hc := claim_C4 fsEx pkgTests "ts" dtA ["tests"] h1 h2 h3
  have hok : createPackage fsEx pkgTests "ts" dtA =
      .ok (getOut (createPackage fsEx pkgTests "ts" dtA)) := by rfl
  have hout := hc.2 _ hok
  have hempty : (getOut (createPackage fsEx pkgTests "ts" dtA)).tocEntries = [] := by decide
  exact ⟨⟨h1, h2, h3⟩, hc.1, hout.1, hout.2 hempty⟩

/-- Claim C5: a read failure on any collected file is fatal for the
whole run (a package is produced only when every collected file reads
successfully), and no file is skipped: on success the table of contents
is exactly the collected list and every collected file's content was
decoded successfully, never replaced. -/
theorem claim_C5 (fs : FS) (pkg : PackageSpec) (ts : String) (now : DateTime) :
    ((∃ e ∈ collectEntries fs pkg, e.content.isOk = false) →
      (createPackage fs pkg ts now).isOk = false) ∧
    (∀ out, createPackage fs pkg ts now = .ok out →
      out.tocEntries = (collectEntries fs pkg).map (fun e => relStr e.path) ∧
      ∀ e ∈ collectEntries fs pkg, ∃ c, e.content = .ok c) := by
  constructor
  · rintro ⟨e, he, hc⟩
    have hra := readAll_err he hc
    rw [createPackage_spec]
    cases hr : readAll (collectEntries fs pkg) with
    | error err => rfl
    | ok l => rw [hr] at hra; simp [Except.isOk, Except.toBool] at hra
  · intro out hout
    obtain ⟨ps, hra, rfl⟩ := createPackage_ok_iff.1 hout
    have hmap : ps.map (fun p => relStr p.1.path) =
        (collectEntries fs pkg).map (fun e => relStr e.path) := by
      rw [← readAll_ok_fst hra, List.map_map]
      rfl
    refine ⟨by simpa [packageOutputOf] using hmap, ?_⟩
    intro e he
    rw [← readAll_ok_fst hra] at he
    obtain ⟨p, hp, rfl⟩ := List.mem_map.1 he
    exact ⟨p.2, readAll_ok_content hra p hp⟩

/-- Claim C5 witness: `fsBad` contains an unreadable `src/bad.rs`; the
`src` package run fails as a whole. -/
theorem claim_C5_witness :
    (∃ e ∈ collectEntries fsBad pkgSrc, e.content.isOk = false) ∧
    (createPackage fsBad pkgSrc "ts" dtA).isOk = false := by
  have hbad : ∃ e ∈ collectEntries fsBad pkgSrc, e.content.isOk = false := by decide
  exact ⟨hbad, (claim_C5 fsBad pkgSrc "ts" dtA).1 hbad⟩

/-- Claim C6: every rendered section is the header (3-digit zero-padded
one-based contiguous index, relative path, formatted creation and
modification timestamps) followed by the file content with all trailing
whitespace stripped and exactly one newline appended; the stripped
content never ends in a whitespace character. -/
theorem claim_C6 (fs : FS) (pkg : PackageSpec) (ts : String) (now : DateTime)
    (out : PackageOutput) (h : createPackage fs pkg ts now = .ok out) :
    out.sections.length = (collectEntries fs pkg).length ∧
    ∀ i (h1 : i < out.sections.length) (h2 : i < (collectEntries fs pkg).length),
      ∃ c, (collectEntries fs pkg)[i].content = .ok c ∧
        out.sections[i] = sectionText (i + 1) (relStr (collectEntries fs pkg)[i].path)
          (collectEntries fs pkg)[i].ctime (collectEntries fs pkg)[i].mtime c ∧
        sectionText (i + 1) (relStr (collectEntries fs pkg)[i].path)
            (collectEntries fs pkg)[i].ctime (collectEntries fs pkg)[i].mtime c =
          "\n\n\n" ++ eq80Line ++
          "// SECTION " ++ padNum 3 (i + 1) ++ ": " ++
            relStr (collectEntries fs pkg)[i].path ++ "\n" ++
          "// Created:  " ++ formatTimestamp (collectEntries fs pkg)[i].ctime ++ "\n" ++
          "// Modified: " ++ formatTimestamp (collectEntries fs pkg)[i].mtime ++ "\n" ++
          eq80Line ++ rstrip c ++ "\n" ∧
        (∀ ch, (rstrip c).data.getLast? = some ch → pyIsSpace ch = false) := by
  obtain ⟨ps, hra, rfl⟩ := createPackage_ok_iff.1 h
  have hfst := readAll_ok_fst hra
  have hlen : ps.length = (collectEntries fs pkg).length := by
    rw [← hfst]
    simp
  refine ⟨by simp [packageOutputOf, renderFrom_length, hlen], ?_⟩
  intro i h1 h2
  have hps : i < ps.length := by omega
  have hentry : (collectEntries fs pkg)[i] = ps[i].1 := by
    have hq : (collectEntries fs pkg)[i]? = some (ps[i].1) := by
      rw [← hfst]
      simp [List.getElem?_eq_getElem hps]
    have hg : (collectEntries fs pkg)[i]? = some ((collectEntries fs pkg)[i]) :=
      List.getElem?_eq_getElem h2
    exact Option.some.inj (hg.symm.trans hq)
  refine ⟨ps[i].2, ?_, ?_, ?_, ?_⟩
  · rw [hentry]
    exact readAll_ok_content hra ps[i] (List.getElem_mem hps)
  · have hrf : i < (renderFrom 0 ps).length := by simpa [renderFrom_length] using hps
    have hsec : (packageOutputOf fs pkg ts now ps).sections[i] =
        sectionText (0 + i + 1) (relStr ps[i].1.path) ps[i].1.ctime ps[i].1.mtime
          ps[i].2 := by
      simpa [packageOutputOf] using renderFrom_getElem 0 ps i hrf hps
    rw [hsec, hentry]
    congr 1
    omega
  · rw [hentry]
    simp [sectionText, String.append_assoc]
  · intro ch hch
    exact rstrip_no_trailing _ ch hch

/-- Claim C6 witness: the sample tree, `src` package (its `src/lib.rs`
content carries trailing whitespace that the section rendering
strips). -/
theorem claim_C6_witness :
    createPackage fsEx pkgSrc "ts" dtA = .ok (getOut (createPackage fsEx pkgSrc "ts" dtA)) ∧
    (getOut (createPackage fsEx pkgSrc "ts" dtA)).sections.length =
      (collectEntries fsEx pkgSrc).length := by
  have h : createPackage fsEx pkgSrc "ts" dtA =
      .ok (getOut (createPackage fsEx pkgSrc "ts" dtA)) := by rfl
  exact ⟨h, (claim_C6 fsEx pkgSrc "ts" dtA _ h).1⟩

/-- Claim C7: one run timestamp is computed once (from clock reading 0)
and reused for every output filename: a successful `package_all` yields
exactly the `PACKAGES` filenames `{timestamp}_{projectTitle}_{suffix}.txt`,
all sharing the identical timestamp prefix and differing only in the
suffix; moreover the prefix is chronologically sortable: whenever two
run timestamps differ at second precision, every filename of the
earlier run sorts lexicographically before every filename of the later
run, so one run's outputs group contiguously and runs sort in
chronological order. -/
theorem claim_C7 (fs : FS) (readings : Nat → DateTime) (outs : List PackageOutput)
    (h : packageAll fs readings = .ok outs) :
    outs.map (fun o => o.filename) =
      PACKAGES.map (fun p => formatOutputTimestamp (readings 0) ++ "_" ++
        PROJECT_TITLE ++ "_" ++ p.suffix ++ ".txt") ∧
    (∀ t1 t2 : DateTime, t1.Valid → t2.Valid → dtLtSec t1 t2 →
      ∀ a b : String,
        formatOutputTimestamp t1 ++ a < formatOutputTimestamp t2 ++ b) := by
  obtain ⟨hlen, hall⟩ := packageAll_spec h
  constructor
  · apply List.ext_getElem
    · simp [hlen]
    intro j hj1 hj2
    have hjo : j < outs.length := by simpa using hj1
    have hjp : j < PACKAGES.length := by simpa using hj2
    have hcp := hall j hjo hjp
    simp only [List.getElem_map]
    exact createPackage_ok_filename hcp
  · intro t1 t2 h1 h2 hlt a b
    exact fot_append_lt h1 h2 hlt a b

/-- Claim C7 witness: a successful run over the empty tree, plus a
concrete pair of run timestamps one second apart. -/
theorem claim_C7_witness :
    packageAll (⟨[]⟩ : FS) rEx = .ok (getOuts (packageAll (⟨[]⟩ : FS) rEx)) ∧
    (getOuts (packageAll (⟨[]⟩ : FS) rEx)).map (fun o => o.filename) =
      PACKAGES.map (fun p => formatOutputTimestamp (rEx 0) ++ "_" ++
        PROJECT_TITLE ++ "_" ++ p.suffix ++ ".txt") ∧
    dtA.Valid ∧ dtB.Valid ∧ dtLtSec dtA dtB ∧
    formatOutputTimestamp dtA ++ "_x.txt" < formatOutputTimestamp dtB ++ "_y.txt" := by
  have h : packageAll (⟨[]⟩ : FS) rEx = .ok (getOuts (packageAll (⟨[]⟩ : FS) rEx)) := by
    rfl
  have hc := claim_C7 (⟨[]⟩ : FS) rEx _ h
  exact ⟨h, hc.1, by decide, by decide, by decide,
    hc.2 dtA dtB (by decide) (by decide) (by decide) "_x.txt" "_y.txt"⟩

/-- Claim C8: over identical filesystem inputs, two runs (with
different run timestamps and different header clock readings) produce
byte-identical table-of-contents blocks, sections, collected path
lists, warnings and file counts; only the header generation timestamp
(and the filename's run timestamp) can differ. -/
theorem claim_C8 (fs : FS) (pkg : PackageSpec) (ts1 ts2 : String)
    (now1 now2 : DateTime) (o1 o2 : PackageOutput)
    (h1 : createPackage fs pkg ts1 now1 = .ok o1)
    (h2 : createPackage fs pkg ts2 now2 = .ok o2) :
    o1.tocLines = o2.tocLines ∧ o1.sections = o2.sections ∧
    o1.tocEntries = o2.tocEntries ∧ o1.warnings = o2.warnings ∧
    o1.count = o2.count := by
  obtain ⟨ps1, hra1, rfl⟩ := createPackage_ok_iff.1 h1
  obtain ⟨ps2, hra2, rfl⟩ := createPackage_ok_iff.1 h2
  rw [hra1] at hra2
  have hps : ps1 = ps2 := Except.ok.inj hra2
  subst hps
  refine ⟨?_, ?_, ?_, ?_, ?_⟩ <;> simp [packageOutputOf]

/-- Claim C8 witness: two runs over the sample tree with distinct run
timestamps and header clock readings. -/
theorem claim_C8_witness :
    createPackage fsEx pkgSrc "t1" dtA = .ok (getOut (createPackage fsEx pkgSrc "t1" dtA)) ∧
    createPackage fsEx pkgSrc "t2" dtB = .ok (getOut (createPackage fsEx pkgSrc "t2" dtB)) ∧
    (getOut (createPackage fsEx pkgSrc "t1" dtA)).tocLines =
      (getOut (createPackage fsEx pkgSrc "t2" dtB)).tocLines ∧
    (getOut (createPackage fsEx pkgSrc "t1" dtA)).sections =
      (getOut (createPackage fsEx pkgSrc "t2" dtB)).sections := by
  have h1 : createPackage fsEx pkgSrc "t1" dtA =
      .ok (getOut (createPackage fsEx pkgSrc "t1" dtA)) := by rfl
  have h2 : createPackage fsEx pkgSrc "t2" dtB =
      .ok (getOut (createPackage fsEx pkgSrc "t2" dtB)) := by rfl
  have hc := claim_C8 fsEx pkgSrc "t1" "t2" dtA dtB _ _ h1 h2
  exact ⟨h1, h2, hc.1, hc.2.1⟩

/-- Claim C9: the directory traversal does not restrict matches to
regular files: in `fsC9` the directory `src/dir.rs` matches `*.rs`, is
collected (passed to the reader), its read raises
`IsADirectoryError`, and both the package run and the whole
`package_all` run abort with that error instead of skipping it or
producing a document. -/
theorem claim_C9 :
    (⟨["src", "dir.rs"], true, .error .isADirectory, dtA, dtA⟩ : Entry) ∈
      collectEntries fsC9 pkgSrc ∧
    createPackage fsC9 pkgSrc "ts" dtA = .error .isADirectory ∧
    packageAll fsC9 rEx = .error .isADirectory := by decide

/-- Claim C10: each document's header generation timestamp is a fresh
clock reading taken inside its own `create_package` call (reading
`1 + j` for the j-th package), independent of the shared run timestamp
(reading 0) that forms every filename prefix; concretely, a run whose
clock readings differ yields four documents with pairwise different
header timestamps, all differing from the filename prefix. -/
theorem claim_C10 (fs : FS) (readings : Nat → DateTime) (outs : List PackageOutput)
    (h : packageAll fs readings = .ok outs) :
    outs.length = PACKAGES.length ∧
    (∀ j (hj : j < outs.length) (hjp : j < PACKAGES.length),
      outs[j].headerTime = formatTimestamp (readings (1 + j)) ∧
      outs[j].filename = formatOutputTimestamp (readings 0) ++ "_" ++ PROJECT_TITLE ++
        "_" ++ PACKAGES[j].suffix ++ ".txt") ∧
    ((getOuts (packageAll (⟨[]⟩ : FS) rEx)).map (fun o => o.headerTime)).Nodup ∧
    (∀ o ∈ getOuts (packageAll (⟨[]⟩ : FS) rEx),
      o.headerTime ≠ formatOutputTimestamp (rEx 0)) := by
  obtain ⟨hlen, hall⟩ := packageAll_spec h
  refine ⟨hlen, ?_, by decide, by decide⟩
  intro j hj hjp
  have hcp := hall j hj hjp
  exact ⟨createPackage_ok_headerTime hcp, createPackage_ok_filename hcp⟩

/-- Claim C10 witness: a successful run over the sample tree. -/
theorem claim_C10_witness :
    packageAll fsEx rEx = .ok (getOuts (packageAll fsEx rEx)) ∧
    (getOuts (packageAll fsEx rEx)).length = PACKAGES.length := by
  have h : packageAll fsEx rEx = .ok (getOuts (packageAll fsEx rEx)) := by rfl
  exact ⟨h, (claim_C10 fsEx rEx _ h).1⟩

end PackageIt
